import Mathlib

/-!
Verification development for the sharded concurrent map `safemap-go`.

The embedding models the current engine (`map.go` variant with `buckets` /
`bucketTotal`, together with `opt.go` and `util.go`, and the typed
constructors `NewSafeMapString` / `NewSafeMapInteger`):

* Go `int` is modelled as `Int` with explicit two's-complement wrapping at
  64 bits where Go overflows (`wrap64`); Go `uint64` values are `Nat`
  (reduced mod `2 ^ 64` where a conversion happens in the source).
* A bucket's inner Go map is an association list with unique keys
  (uniqueness is an invariant proved below, not assumed by the operations).
* The `int32` element counter is modelled as an exact `Int`: every atomic
  add in the source is an exact add here (int32 wrap-around is unreachable
  for any state a concrete witness can evaluate).
* `make([]T, n)` with a negative `n` panics in Go; construction therefore
  returns a three-way outcome `ok / errMissingHashFunc / panicMakeSlice`.
* Locking cannot be run, so the lock/mutate/unlock structure of `Clear` is
  modelled two ways: the sequential state transformer (`Clear`, a loop of
  per-bucket `clearStep`s exactly as the source loop body), and the event
  trace `clearTrace` recording in which order the source acquires locks,
  mutates buckets and releases locks.
-/

namespace SafemapGo

/-- Wrap an integer into the signed 64-bit range, as Go arithmetic does. -/
def wrap64 (x : Int) : Int := (x + 2 ^ 63) % 2 ^ 64 - 2 ^ 63

/-- Go conversion `uint64(x)` for an `int` value `x` (two's complement). -/
def toUint64 (x : Int) : Nat := (x % 2 ^ 64).toNat

/-- Go unary negation on `int` (wraps: `-minInt64 = minInt64`). -/
def negInt64 (x : Int) : Int := wrap64 (-x)

/-- `util.go`: `func Hashint(i int) uint64 { if i < 0 { i = -i }; return uint64(i) }`. -/
def Hashint (i : Int) : Nat := if i < 0 then toUint64 (negInt64 i) else toUint64 i

/-- `hashIndex` body: `hash & uint64(bucketTotal-1)` (the `int` cast is the identity
for the in-range totals produced by construction). -/
def hashIdxFn (h n : Nat) : Nat := h &&& (n - 1)

/-- Go expression `1 << mask` at type `int`, for a `uint8` shift count. -/
def shl1Int64 (mask : Nat) : Int := wrap64 (2 ^ mask)

/-- `opt.go`: the `options[K]` struct (`hashFunc` is nil-able). -/
structure GoOptions (K : Type) where
  bucketTotal : Int
  hashFunc : Option (K → Nat)

/-- `opt.go`: `OptFunc[K] = func(*options[K])`, modelled as a state transformer. -/
def OptFunc (K : Type) := GoOptions K → GoOptions K

/-- `opt.go` `WithBuckets`: clamp the shifted value to `maxBucketCount = 256`
only when the comparison `1<<mask > 256` holds at `int` width. -/
def withBuckets {K : Type} (mask : Nat) : OptFunc K := fun o =>
  if shl1Int64 mask > 256 then { o with bucketTotal := 256 }
  else { o with bucketTotal := shl1Int64 mask }

/-- `opt.go` `WithHashFunc`. -/
def withHashFunc {K : Type} (fn : K → Nat) : OptFunc K := fun o =>
  { o with hashFunc := some fn }

/-- Result of `loadOpts`: either resolved options or `ErrMissingHashFunc`. -/
inductive LoadResult (K : Type) where
  | ok (o : GoOptions K)
  | errMissingHashFunc

/-- The two normalization steps `loadOpts` applies to `bucketTotal`:
default to `defaultBucketCount = 32` when it is still the zero value, then
clamp above `maxBucketCount = 256`. -/
def resolveBucketTotal (x : Int) : Int :=
  if (if x = 0 then (32 : Int) else x) > 256 then 256
  else if x = 0 then 32 else x

/-- `opt.go` `loadOpts`: apply options in order over the zero-valued struct,
normalize `bucketTotal` (see `resolveBucketTotal`), then require a hash
function (`ErrMissingHashFunc` otherwise). -/
def loadOpts {K : Type} (opts : List (OptFunc K)) : LoadResult K :=
  let o0 := opts.foldl (fun acc f => f acc) { bucketTotal := 0, hashFunc := none }
  match o0.hashFunc with
  | none => .errMissingHashFunc
  | some _ =>
    .ok { bucketTotal := resolveBucketTotal o0.bucketTotal, hashFunc := o0.hashFunc }

/-- The resolved bucket count of a configuration (for stating claims). -/
def resolvedBucketTotal {K : Type} (opts : List (OptFunc K)) : Option Int :=
  match loadOpts opts with
  | .ok o => some o.bucketTotal
  | .errMissingHashFunc => none

/-- The `safeMap` struct: counter, bucket array and embedded options. -/
structure SafeMapState (K V : Type) where
  count : Int
  buckets : List (List (K × V))
  bucketTotal : Nat
  hashFunc : K → Nat

/-- Outcome of `New`: a map, `ErrMissingHashFunc`, or the runtime panic Go
raises when `make` receives a negative length. -/
inductive ConstructOutcome (K V : Type) where
  | ok (m : SafeMapState K V)
  | errMissingHashFunc
  | panicMakeSlice

/-- `New`: load options, then allocate `bucketTotal` empty buckets
(`make([]*bucketMap[K,V], opt.bucketTotal)` panics when the count is
negative). -/
def New {K V : Type} (opts : List (OptFunc K)) : ConstructOutcome K V :=
  match loadOpts opts with
  | .errMissingHashFunc => .errMissingHashFunc
  | .ok o =>
    match o.hashFunc with
    | none => .errMissingHashFunc
    | some fn =>
      if o.bucketTotal < 0 then .panicMakeSlice
      else .ok { count := 0
                 buckets := List.replicate o.bucketTotal.toNat []
                 bucketTotal := o.bucketTotal.toNat
                 hashFunc := fn }

/-- Typed constructor shape shared by `NewSafeMapString` / `NewSafeMapInteger`
(and `NewStringMap` / `NewIntegerMap`): append the built-in hash function
after the caller's options, then call the base constructor and discard the
error result. `builtin` stands for the concrete built-in hash. -/
def NewTypedMap {K V : Type} (builtin : K → Nat) (opts : List (OptFunc K)) :
    ConstructOutcome K V :=
  New (opts ++ [withHashFunc builtin])

/-- `NewSafeMapInteger` for `int` keys: the appended built-in hash folds a
negative key to its magnitude before the `uint64` cast, exactly `Hashint`. -/
def NewSafeMapInteger (V : Type) (opts : List (OptFunc Int)) : ConstructOutcome Int V :=
  NewTypedMap Hashint opts

section BucketOps

variable {K V : Type} [DecidableEq K]

/-- Go map read `innerMap[key]` on the association-list model. -/
def bLookup : List (K × V) → K → Option V
  | [], _ => none
  | (k', v) :: t, k => if k' = k then some v else bLookup t k

/-- Go map write `innerMap[key] = val`: replace the binding if present,
append otherwise. -/
def bInsert : List (K × V) → K → V → List (K × V)
  | [], k, v => [(k, v)]
  | (k', v') :: t, k, v =>
    if k' = k then (k, v) :: t else (k', v') :: bInsert t k v

/-- Go `delete(innerMap, key)`: remove the (unique) binding if present. -/
def bErase : List (K × V) → K → List (K × V)
  | [], _ => []
  | (k', v') :: t, k => if k' = k then t else (k', v') :: bErase t k

end BucketOps

namespace SafeMapState

variable {K V : Type} [DecidableEq K]

/-- `hashIndex(key)`. -/
def hashIdx (m : SafeMapState K V) (key : K) : Nat :=
  hashIdxFn (m.hashFunc key) m.bucketTotal

/-- Bucket `i`'s inner table (construction keeps every index in range). -/
def bucket (m : SafeMapState K V) (i : Nat) : List (K × V) :=
  m.buckets.getD i []

/-- `Get`. -/
def Get (m : SafeMapState K V) (key : K) : Option V :=
  bLookup (m.bucket (m.hashIdx key)) key

/-- `Set`: under the bucket's lock, bump the counter exactly when the key is
absent, then write unconditionally. -/
def Set (m : SafeMapState K V) (key : K) (val : V) : SafeMapState K V :=
  let i := m.hashIdx key
  let b := m.bucket i
  { m with
    count := if (bLookup b key).isNone then m.count + 1 else m.count
    buckets := m.buckets.set i (bInsert b key val) }

/-- `Delete`: remove and decrement only when present. -/
def Delete (m : SafeMapState K V) (key : K) : SafeMapState K V :=
  let i := m.hashIdx key
  let b := m.bucket i
  match bLookup b key with
  | some _ =>
    { m with count := m.count - 1, buckets := m.buckets.set i (bErase b key) }
  | none => m

/-- `GetAndDelete`: one critical section returning the removed value. -/
def GetAndDelete (m : SafeMapState K V) (key : K) :
    Option V × SafeMapState K V :=
  let i := m.hashIdx key
  let b := m.bucket i
  match bLookup b key with
  | some v =>
    (some v,
     { m with count := m.count - 1, buckets := m.buckets.set i (bErase b key) })
  | none => (none, m)

/-- `GetOrSet`: return the existing value, else store the given one. -/
def GetOrSet (m : SafeMapState K V) (key : K) (val : V) :
    (V × Bool) × SafeMapState K V :=
  let i := m.hashIdx key
  let b := m.bucket i
  match bLookup b key with
  | some v => ((v, true), m)
  | none =>
    ((val, false),
     { m with count := m.count + 1, buckets := m.buckets.set i (bInsert b key val) })

/-- One iteration of `Clear`'s loop body on bucket `i`: under that bucket's
lock, remember its size, delete every key, subtract the size. -/
def clearStep (m : SafeMapState K V) (i : Nat) : SafeMapState K V :=
  { m with
    count := m.count - (m.bucket i).length
    buckets := m.buckets.set i [] }

/-- The state after `Clear` has processed buckets `0, …, j-1`. -/
def clearLoop (m : SafeMapState K V) : Nat → SafeMapState K V
  | 0 => m
  | j + 1 => (m.clearLoop j).clearStep j

/-- `Clear`: the loop over all buckets in ascending index order. -/
def Clear (m : SafeMapState K V) : SafeMapState K V :=
  m.clearLoop m.bucketTotal

/-- `Len`: atomic load of the counter. -/
def Len (m : SafeMapState K V) : Int := m.count

/-- `IsEmpty`: the counter compared with zero. -/
def IsEmpty (m : SafeMapState K V) : Bool := m.count == 0

end SafeMapState

/-- The entries `Range` would pass to its visitor, in bucket order, with the
early stop when the visitor returns false (the entry that received `false`
has still been visited). -/
def rangeVisit {K V : Type} (f : K → V → Bool) : List (K × V) → List (K × V)
  | [] => []
  | (k, v) :: t => if f k v then (k, v) :: rangeVisit f t else [(k, v)]

/-- `Range`: visit all buckets' entries in bucket order under all locks. -/
def SafeMapState.Range {K V : Type} (m : SafeMapState K V) (f : K → V → Bool) :
    List (K × V) :=
  rangeVisit f m.buckets.flatten

/-- Projection on construction outcomes: did `New` return a map? -/
def ConstructOutcome.isOk {K V : Type} : ConstructOutcome K V → Bool
  | .ok _ => true
  | _ => false

/-- The hash function a list of options resolves to (`none` both when
`loadOpts` fails and in the impossible `ok`-with-`nil`-hash case). -/
def resolvedHashFunc {K : Type} (opts : List (OptFunc K)) : Option (K → Nat) :=
  match loadOpts opts with
  | .ok o => o.hashFunc
  | .errMissingHashFunc => none

/-- Lock-protocol events of a whole-map operation, tagged by bucket index. -/
inductive ClearEv where
  | lockEv (i : Nat)
  | mutateEv (i : Nat)
  | unlockEv (i : Nat)
deriving DecidableEq

/-- The event order of the source's `Clear` loop: for each bucket in
ascending index order, acquire its lock, clear it (adjusting the counter)
and release it — all before touching the next bucket. -/
def clearTrace (n : Nat) : List ClearEv :=
  (List.range n).flatMap fun i => [.lockEv i, .mutateEv i, .unlockEv i]

def isLockEv : ClearEv → Bool
  | .lockEv _ => true
  | _ => false

def isMutateEv : ClearEv → Bool
  | .mutateEv _ => true
  | _ => false

/-- The discipline the spec describes for `Clear`: every lock acquisition
happens before the first mutation of any bucket. -/
def allLocksBeforeMutations (tr : List ClearEv) : Bool :=
  ((tr.takeWhile fun e => !isMutateEv e).filter isLockEv).length ==
    (tr.filter isLockEv).length

/-- Total number of entries physically stored across all buckets. -/
def sumSizes {K V : Type} (m : SafeMapState K V) : Nat :=
  (m.buckets.map List.length).sum

/-- Well-formedness of a map state: the bucket slice has exactly
`bucketTotal` buckets, `bucketTotal` is positive, the counter equals the
number of stored entries, and every bucket's keys are unique (as in a Go
map). Every state `New` builds is well-formed and every operation
preserves it. -/
def WF {K V : Type} (m : SafeMapState K V) : Prop :=
  m.buckets.length = m.bucketTotal ∧
  0 < m.bucketTotal ∧
  m.count = (sumSizes m : Int) ∧
  ∀ b ∈ m.buckets, (b.map Prod.fst).Nodup

instance {K V : Type} [DecidableEq K] (m : SafeMapState K V) :
    Decidable (WF m) := by
  unfold WF; infer_instance

/-- The mutating operations of the public surface, for quantifying over
arbitrary operation sequences. -/
inductive MapOp (K V : Type) where
  | setOp (k : K) (v : V)
  | deleteOp (k : K)
  | getAndDeleteOp (k : K)
  | getOrSetOp (k : K) (v : V)
  | clearOp

/-- Run one operation (results of the compound operations discarded). -/
def applyOp {K V : Type} [DecidableEq K] (m : SafeMapState K V) :
    MapOp K V → SafeMapState K V
  | .setOp k v => m.Set k v
  | .deleteOp k => m.Delete k
  | .getAndDeleteOp k => (m.GetAndDelete k).2
  | .getOrSetOp k v => (m.GetOrSet k v).2
  | .clearOp => m.Clear

/-- Run a sequence of operations left to right. -/
def applyOps {K V : Type} [DecidableEq K] (m : SafeMapState K V)
    (ops : List (MapOp K V)) : SafeMapState K V :=
  ops.foldl applyOp m

/-- Operations that can remove key `k` or overwrite its value (`GetOrSet`
never changes the value of a present key, so it is harmless). -/
def mayTouch {K V : Type} [DecidableEq K] (k : K) : MapOp K V → Bool
  | .setOp k' _ => decide (k' = k)
  | .deleteOp k' => decide (k' = k)
  | .getAndDeleteOp k' => decide (k' = k)
  | .getOrSetOp _ _ => false
  | .clearOp => true

/-- Identity hash on `Nat` keys, for concrete example maps. -/
def fId : Nat → Nat := fun k => k

/-- The empty two-bucket map `New [withBuckets 1, withHashFunc fId]` builds. -/
def ex0 : SafeMapState Nat Nat :=
  { count := 0, buckets := List.replicate 2 [], bucketTotal := 2, hashFunc := fId }

/-- A concrete two-bucket map holding one entry per bucket. -/
def exC1 : SafeMapState Nat Nat :=
  { count := 2, buckets := [[(0, 10)], [(1, 20)]], bucketTotal := 2, hashFunc := fId }

/-- A concrete two-bucket map used by several witnesses. -/
def mW : SafeMapState Nat Nat :=
  { count := 2, buckets := [[(0, 5)], [(1, 7)]], bucketTotal := 2, hashFunc := fId }

/-- A constant hash function on `int` keys, for concrete configurations. -/
def hZero : Int → Nat := fun _ => 0

/-- A one-bucket empty map over string keys. -/
def emptyX : SafeMapState String Int :=
  { count := 0, buckets := [[]], bucketTotal := 1, hashFunc := fun _ => 0 }

/-- The state `New [withHashFunc fId]` constructs: 32 default buckets. -/
def m0W : SafeMapState Nat Nat :=
  { count := 0, buckets := List.replicate 32 [], bucketTotal := 32, hashFunc := fId }

section BucketLemmas

variable {K V : Type} [DecidableEq K]

theorem bLookup_bInsert_self (l : List (K × V)) (k : K) (v : V) :
    bLookup (bInsert l k v) k = some v := by
  induction l with
  | nil => simp [bInsert, bLookup]
  | cons h t ih =>
    obtain ⟨k', v'⟩ := h
    by_cases hk : k' = k
    · simp [bInsert, hk, bLookup]
    · simp [bInsert, hk, bLookup, ih]

theorem bLookup_bInsert_ne (l : List (K × V)) (k k0 : K) (v : V) (h : k0 ≠ k) :
    bLookup (bInsert l k v) k0 = bLookup l k0 := by
  have hne : ¬k = k0 := fun hh => h hh.symm
  induction l with
  | nil => simp [bInsert, bLookup, hne]
  | cons hd t ih =>
    obtain ⟨k', v'⟩ := hd
    by_cases hk : k' = k
    · subst hk
      simp [bInsert, bLookup, hne]
    · simp only [bInsert, if_neg hk, bLookup]
      by_cases hk0 : k' = k0 <;> simp [hk0, ih]

theorem length_bInsert (l : List (K × V)) (k : K) (v : V) :
    (bInsert l k v).length =
      if (bLookup l k).isNone then l.length + 1 else l.length := by
  induction l with
  | nil => simp [bInsert, bLookup]
  | cons hd t ih =>
    obtain ⟨k', v'⟩ := hd
    by_cases hk : k' = k
    · simp [bInsert, hk, bLookup]
    · simp only [bInsert, if_neg hk, bLookup, List.length_cons, ih]
      by_cases hl : (bLookup t k).isNone <;> simp [hl]

theorem bLookup_eq_none_iff (l : List (K × V)) (k : K) :
    bLookup l k = none ↔ k ∉ l.map Prod.fst := by
  induction l with
  | nil => simp [bLookup]
  | cons hd t ih =>
    obtain ⟨k', v'⟩ := hd
    by_cases hk : k' = k
    · simp [bLookup, hk]
    · simp only [bLookup, if_neg hk, List.map_cons, List.mem_cons]
      rw [ih]
      constructor
      · rintro hnot (h1 | h2)
        · exact hk h1.symm
        · exact hnot h2
      · intro hnot h2
        exact hnot (Or.inr h2)

theorem keys_bInsert (l : List (K × V)) (k : K) (v : V) :
    (bInsert l k v).map Prod.fst =
      if k ∈ l.map Prod.fst then l.map Prod.fst else l.map Prod.fst ++ [k] := by
  induction l with
  | nil => simp [bInsert]
  | cons hd t ih =>
    obtain ⟨k', v'⟩ := hd
    by_cases hk : k' = k
    · simp [bInsert, hk]
    · have hne : ¬k = k' := fun hh => hk hh.symm
      simp only [bInsert, if_neg hk, List.map_cons, ih, List.mem_cons]
      by_cases hmem : k ∈ t.map Prod.fst <;> simp [hmem, hne]

theorem keys_bInsert_nodup (l : List (K × V)) (k : K) (v : V)
    (h : (l.map Prod.fst).Nodup) : ((bInsert l k v).map Prod.fst).Nodup := by
  rw [keys_bInsert]
  by_cases hmem : k ∈ l.map Prod.fst
  · simpa [hmem] using h
  · simp only [hmem, if_false]
    exact List.Nodup.append h (List.nodup_singleton k) (by simpa using hmem)

theorem bErase_of_bLookup_none (l : List (K × V)) (k : K)
    (h : bLookup l k = none) : bErase l k = l := by
  induction l with
  | nil => simp [bErase]
  | cons hd t ih =>
    obtain ⟨k', v'⟩ := hd
    by_cases hk : k' = k
    · simp [bLookup, hk] at h
    · simp only [bLookup, if_neg hk] at h
      simp [bErase, hk, ih h]

theorem bErase_sublist (l : List (K × V)) (k : K) : (bErase l k).Sublist l := by
  induction l with
  | nil => simp [bErase]
  | cons hd t ih =>
    obtain ⟨k', v'⟩ := hd
    by_cases hk : k' = k
    · rw [bErase, if_pos hk]
      exact List.sublist_cons_self (k', v') t
    · simpa [bErase, hk] using List.Sublist.cons₂ (k', v') ih

theorem keys_bErase_nodup (l : List (K × V)) (k : K)
    (h : (l.map Prod.fst).Nodup) : ((bErase l k).map Prod.fst).Nodup :=
  List.Nodup.sublist (List.Sublist.map Prod.fst (bErase_sublist l k)) h

theorem length_bErase (l : List (K × V)) (k : K)
    (h : (bLookup l k).isSome) : (bErase l k).length + 1 = l.length := by
  induction l with
  | nil => simp [bLookup] at h
  | cons hd t ih =>
    obtain ⟨k', v'⟩ := hd
    by_cases hk : k' = k
    · simp [bErase, hk]
    · simp only [bLookup, if_neg hk] at h
      simp [bErase, hk, ih h]

theorem bLookup_bErase_self (l : List (K × V)) (k : K)
    (h : (l.map Prod.fst).Nodup) : bLookup (bErase l k) k = none := by
  induction l with
  | nil => simp [bErase, bLookup]
  | cons hd t ih =>
    obtain ⟨k', v'⟩ := hd
    simp only [List.map_cons, List.nodup_cons] at h
    by_cases hk : k' = k
    · subst hk
      rw [bLookup_eq_none_iff]
      simpa [bErase] using h.1
    · simp [bErase, hk, bLookup, ih h.2]

theorem bLookup_bErase_ne (l : List (K × V)) (k k0 : K) (h : k0 ≠ k) :
    bLookup (bErase l k) k0 = bLookup l k0 := by
  induction l with
  | nil => simp [bErase]
  | cons hd t ih =>
    obtain ⟨k', v'⟩ := hd
    by_cases hk : k' = k
    · subst hk
      have : ¬k' = k0 := fun hh => h hh.symm
      simp [bErase, bLookup, this]
    · simp only [bErase, if_neg hk, bLookup]
      by_cases hk0 : k' = k0 <;> simp [hk0, ih]

end BucketLemmas

section ListHelpers

variable {α : Type}

theorem getD_set_self (l : List α) (i : Nat) (b d : α) (h : i < l.length) :
    (l.set i b).getD i d = b := by
  induction l generalizing i with
  | nil => simp at h
  | cons hd t ih =>
    cases i with
    | zero => simp
    | succ j =>
      simp only [List.set_cons_succ, List.getD_cons_succ]
      exact ih j (by simpa using h)

theorem getD_set_ne (l : List α) (i j : Nat) (b d : α) (h : i ≠ j) :
    (l.set i b).getD j d = l.getD j d := by
  induction l generalizing i j with
  | nil => simp
  | cons hd t ih =>
    cases i with
    | zero =>
      cases j with
      | zero => exact absurd rfl h
      | succ j' => simp
    | succ i' =>
      cases j with
      | zero => simp
      | succ j' =>
        simp only [List.set_cons_succ, List.getD_cons_succ]
        exact ih i' j' fun hh => h (by rw [hh])

theorem sum_map_length_set (l : List (List α)) (i : Nat) (b : List α)
    (h : i < l.length) :
    ((l.set i b).map List.length).sum + (l.getD i []).length
      = (l.map List.length).sum + b.length := by
  induction l generalizing i with
  | nil => simp at h
  | cons hd t ih =>
    cases i with
    | zero => simp; omega
    | succ j =>
      simp only [List.set_cons_succ, List.map_cons, List.sum_cons,
        List.getD_cons_succ]
      have := ih j (by simpa using h)
      omega

theorem mem_of_mem_set (l : List α) (i : Nat) (b c : α)
    (h : c ∈ l.set i b) : c ∈ l ∨ c = b := by
  induction l generalizing i with
  | nil => simp at h
  | cons hd t ih =>
    cases i with
    | zero =>
      rcases List.mem_cons.mp h with hc | hc
      · right; exact hc
      · left; exact List.mem_cons_of_mem hd hc
    | succ j =>
      rcases List.mem_cons.mp h with hc | hc
      · left; exact hc ▸ List.mem_cons_self hd t
      · rcases ih j hc with h1 | h1
        · left; exact List.mem_cons_of_mem hd h1
        · right; exact h1

theorem set_append_left_len (A B : List α) (b : α) :
    (A ++ B).set A.length b = A ++ B.set 0 b := by
  induction A with
  | nil => simp
  | cons hd t ih => simp [ih]

theorem getD_append_left_len (A B : List α) (d : α) :
    (A ++ B).getD A.length d = B.getD 0 d := by
  induction A with
  | nil => simp
  | cons hd t ih => simpa using ih

theorem flatten_replicate_nil (n : Nat) :
    (List.replicate n ([] : List α)).flatten = [] := by
  induction n with
  | zero => simp
  | succ j ih => simp [List.replicate_succ, ih]

theorem getD_append_lt (A B : List α) (i : Nat) (d : α) (h : i < A.length) :
    (A ++ B).getD i d = A.getD i d := by
  induction A generalizing i with
  | nil => simp at h
  | cons hd t ih =>
    cases i with
    | zero => simp
    | succ j =>
      simp only [List.cons_append, List.getD_cons_succ]
      exact ih j (by simpa using h)

theorem getD_append_add (A B : List α) (t : Nat) (d : α) :
    (A ++ B).getD (A.length + t) d = B.getD t d := by
  induction A with
  | nil => simp
  | cons hd tl ih =>
    simp only [List.cons_append, List.length_cons]
    rw [Nat.succ_add]
    simpa using ih

theorem getD_replicate_self (n i : Nat) (a : α) :
    (List.replicate n a).getD i a = a := by
  rcases Nat.lt_or_ge i n with h | h
  · rw [List.getD_eq_getElem _ _ (by simpa using h)]
    simp
  · exact List.getD_eq_default _ _ (by simpa using h)

theorem getD_drop (l : List α) (j t : Nat) (d : α) :
    (l.drop j).getD t d = l.getD (j + t) d := by
  induction l generalizing j with
  | nil => simp
  | cons hd tl ih =>
    cases j with
    | zero => simp
    | succ j' => simp [Nat.succ_add, ih j']

theorem sum_map_take_drop (l : List (List α)) (j : Nat) :
    (l.map List.length).sum =
      ((l.take j).map List.length).sum + ((l.drop j).map List.length).sum := by
  conv_lhs => rw [← List.take_append_drop j l]
  simp

end ListHelpers

namespace SafeMapState

variable {K V : Type} [DecidableEq K]

omit [DecidableEq K] in
theorem hashIdx_lt (m : SafeMapState K V) (hpos : 0 < m.bucketTotal) (k : K) :
    m.hashIdx k < m.bucketTotal := by
  have h1 : m.hashFunc k &&& (m.bucketTotal - 1) ≤ m.bucketTotal - 1 :=
    Nat.and_le_right
  unfold hashIdx hashIdxFn
  omega

omit [DecidableEq K] in
theorem bucket_mem (m : SafeMapState K V) (i : Nat) (h : i < m.buckets.length) :
    m.bucket i ∈ m.buckets := by
  unfold bucket
  rw [List.getD_eq_getElem _ _ h]
  exact List.getElem_mem h

theorem hashIdx_Set (m : SafeMapState K V) (k : K) (v : V) (k0 : K) :
    (m.Set k v).hashIdx k0 = m.hashIdx k0 := rfl

omit [DecidableEq K] in
@[simp] theorem hashIdx_mk (c : Int) (bs : List (List (K × V))) (bt : Nat)
    (f : K → Nat) (k : K) :
    (SafeMapState.mk c bs bt f).hashIdx k = hashIdxFn (f k) bt := rfl

omit [DecidableEq K] in
@[simp] theorem hashIdxFn_hashFunc (m : SafeMapState K V) (k : K) :
    hashIdxFn (m.hashFunc k) m.bucketTotal = m.hashIdx k := rfl

omit [DecidableEq K] in
@[simp] theorem bucket_mk (c : Int) (bs : List (List (K × V))) (bt : Nat)
    (f : K → Nat) (i : Nat) :
    (SafeMapState.mk c bs bt f).bucket i = bs.getD i [] := rfl

theorem Get_Set_self (m : SafeMapState K V) (hwf : WF m) (k : K) (v : V) :
    (m.Set k v).Get k = some v := by
  obtain ⟨hlen, hpos, _, _⟩ := hwf
  have hidx : m.hashIdx k < m.buckets.length := hlen ▸ m.hashIdx_lt hpos k
  simp only [Get, Set, bucket, hashIdx_mk, hashIdxFn_hashFunc]
  rw [getD_set_self _ _ _ _ hidx]
  exact bLookup_bInsert_self _ _ _

theorem Get_Set_ne (m : SafeMapState K V) (k k0 : K) (v : V) (h : k0 ≠ k) :
    (m.Set k v).Get k0 = m.Get k0 := by
  by_cases hi : m.hashIdx k0 = m.hashIdx k
  · by_cases hidx : m.hashIdx k < m.buckets.length
    · simp only [Get, Set, bucket, hashIdx_mk, hashIdxFn_hashFunc]
      rw [hi, getD_set_self _ _ _ _ hidx]
      rw [bLookup_bInsert_ne _ _ _ _ h]
    · simp only [Get, Set, bucket, hashIdx_mk, hashIdxFn_hashFunc]
      rw [List.set_eq_of_length_le (by omega)]
  · simp only [Get, Set, bucket, hashIdx_mk, hashIdxFn_hashFunc]
    rw [getD_set_ne _ _ _ _ _ fun hh => hi hh.symm]

theorem Len_Set (m : SafeMapState K V) (k : K) (v : V) :
    (m.Set k v).Len = if (m.Get k).isNone then m.Len + 1 else m.Len := rfl

theorem WF_Set (m : SafeMapState K V) (hwf : WF m) (k : K) (v : V) :
    WF (m.Set k v) := by
  obtain ⟨hlen, hpos, hcount, hnd⟩ := hwf
  have hidx : m.hashIdx k < m.buckets.length := hlen ▸ m.hashIdx_lt hpos k
  refine ⟨by simpa [Set] using hlen, hpos, ?_, ?_⟩
  · have hsum := sum_map_length_set m.buckets (m.hashIdx k)
      (bInsert (m.bucket (m.hashIdx k)) k v) hidx
    have hins := length_bInsert (m.bucket (m.hashIdx k)) k v
    simp only [Set, sumSizes, Get, bucket] at *
    by_cases habs : (bLookup (m.buckets.getD (m.hashIdx k) []) k).isNone
    · rw [if_pos habs]
      rw [if_pos habs] at hins
      omega
    · rw [if_neg habs]
      rw [if_neg habs] at hins
      omega
  · intro b hb
    rcases mem_of_mem_set _ _ _ _ hb with h1 | h1
    · exact hnd b h1
    · subst h1
      exact keys_bInsert_nodup _ k v (hnd _ (m.bucket_mem _ hidx))

theorem Delete_of_Get_none (m : SafeMapState K V) (k : K)
    (h : m.Get k = none) : m.Delete k = m := by
  simp only [Delete, Get, bucket] at *
  rw [h]

theorem WF_Delete (m : SafeMapState K V) (hwf : WF m) (k : K) :
    WF (m.Delete k) := by
  obtain ⟨hlen, hpos, hcount, hnd⟩ := hwf
  have hidx : m.hashIdx k < m.buckets.length := hlen ▸ m.hashIdx_lt hpos k
  simp only [Delete]
  cases hlk : bLookup (m.bucket (m.hashIdx k)) k with
  | none => exact ⟨hlen, hpos, hcount, hnd⟩
  | some v =>
    refine ⟨by simpa using hlen, hpos, ?_, ?_⟩
    · have hsum := sum_map_length_set m.buckets (m.hashIdx k)
        (bErase (m.bucket (m.hashIdx k)) k) hidx
      have hdel := length_bErase (m.bucket (m.hashIdx k)) k (by rw [hlk]; rfl)
      simp only [sumSizes, bucket] at *
      omega
    · intro b hb
      rcases mem_of_mem_set _ _ _ _ hb with h1 | h1
      · exact hnd b h1
      · subst h1
        exact keys_bErase_nodup _ k (hnd _ (m.bucket_mem _ hidx))

theorem Get_Delete_self (m : SafeMapState K V) (hwf : WF m) (k : K) :
    (m.Delete k).Get k = none := by
  obtain ⟨hlen, hpos, _, hnd⟩ := hwf
  have hidx : m.hashIdx k < m.buckets.length := hlen ▸ m.hashIdx_lt hpos k
  simp only [Delete]
  cases hlk : bLookup (m.bucket (m.hashIdx k)) k with
  | none => simpa only [Get] using hlk
  | some v =>
    simp only [Get, bucket_mk, hashIdx_mk, hashIdxFn_hashFunc]
    rw [getD_set_self _ _ _ _ hidx]
    exact bLookup_bErase_self _ _ (hnd _ (m.bucket_mem _ hidx))

theorem Get_Delete_ne (m : SafeMapState K V) (k k0 : K) (h : k0 ≠ k) :
    (m.Delete k).Get k0 = m.Get k0 := by
  simp only [Delete]
  cases hlk : bLookup (m.bucket (m.hashIdx k)) k with
  | none => rfl
  | some v =>
    simp only [Get, bucket_mk, hashIdx_mk, hashIdxFn_hashFunc]
    by_cases hi : m.hashIdx k0 = m.hashIdx k
    · by_cases hidx : m.hashIdx k < m.buckets.length
      · rw [hi, getD_set_self _ _ _ _ hidx]
        rw [bLookup_bErase_ne _ _ _ h]
      · rw [List.set_eq_of_length_le (by omega)]
        simp [bucket]
    · rw [getD_set_ne _ _ _ _ _ fun hh => hi hh.symm]
      simp [bucket]

theorem Len_Delete_some (m : SafeMapState K V) (k : K) (v : V)
    (h : m.Get k = some v) : (m.Delete k).Len = m.Len - 1 := by
  simp only [Get] at h
  simp [Delete, h, Len]

theorem GetAndDelete_fst (m : SafeMapState K V) (k : K) :
    (m.GetAndDelete k).1 = m.Get k := by
  simp only [GetAndDelete, Get]
  cases hlk : bLookup (m.bucket (m.hashIdx k)) k <;> simp [hlk]

theorem GetAndDelete_snd (m : SafeMapState K V) (k : K) :
    (m.GetAndDelete k).2 = m.Delete k := by
  simp only [GetAndDelete, Delete]
  cases hlk : bLookup (m.bucket (m.hashIdx k)) k <;> simp [hlk]

theorem GetOrSet_of_some (m : SafeMapState K V) (k : K) (v w : V)
    (h : m.Get k = some w) : m.GetOrSet k v = ((w, true), m) := by
  simp only [Get] at h
  simp [GetOrSet, h]

theorem GetOrSet_snd_of_none (m : SafeMapState K V) (k : K) (v : V)
    (h : m.Get k = none) : (m.GetOrSet k v).2 = m.Set k v := by
  simp only [Get] at h
  simp [GetOrSet, Set, h]

theorem GetOrSet_fst_of_none (m : SafeMapState K V) (k : K) (v : V)
    (h : m.Get k = none) : (m.GetOrSet k v).1 = (v, false) := by
  simp only [Get] at h
  simp [GetOrSet, h]

theorem WF_GetOrSet (m : SafeMapState K V) (hwf : WF m) (k : K) (v : V) :
    WF (m.GetOrSet k v).2 := by
  cases h : m.Get k with
  | none => rw [GetOrSet_snd_of_none _ _ _ h]; exact m.WF_Set hwf k v
  | some w => rw [GetOrSet_of_some _ _ _ _ h]; exact hwf

omit [DecidableEq K] in
theorem clearLoop_bucketTotal (m : SafeMapState K V) (j : Nat) :
    (m.clearLoop j).bucketTotal = m.bucketTotal := by
  induction j with
  | zero => rfl
  | succ i ih => simp [clearLoop, clearStep, ih]

omit [DecidableEq K] in
theorem clearLoop_length (m : SafeMapState K V) (j : Nat) :
    (m.clearLoop j).buckets.length = m.buckets.length := by
  induction j with
  | zero => rfl
  | succ i ih => simp [clearLoop, clearStep, ih]

omit [DecidableEq K] in
theorem clearLoop_buckets (m : SafeMapState K V) (j : Nat)
    (hj : j ≤ m.buckets.length) :
    (m.clearLoop j).buckets = List.replicate j [] ++ m.buckets.drop j := by
  induction j with
  | zero => simp [clearLoop]
  | succ i ih =>
    have hi : i < m.buckets.length := by omega
    have hdrop : m.buckets.drop i = m.buckets[i] :: m.buckets.drop (i + 1) :=
      List.drop_eq_getElem_cons hi
    show ((m.clearLoop i).clearStep i).buckets = _
    simp only [clearStep]
    rw [ih (by omega), hdrop]
    have hset := set_append_left_len (List.replicate i ([] : List (K × V)))
      (m.buckets[i] :: m.buckets.drop (i + 1)) []
    simp only [List.length_replicate] at hset
    rw [hset, List.set_cons_zero, List.replicate_succ']
    simp

omit [DecidableEq K] in
theorem clearLoop_bucket_of_lt (m : SafeMapState K V) (j i : Nat)
    (hj : j ≤ m.buckets.length) (hi : i < j) :
    (m.clearLoop j).bucket i = [] := by
  unfold bucket
  rw [clearLoop_buckets m j hj]
  rw [getD_append_lt _ _ _ _ (by simpa using hi)]
  exact getD_replicate_self _ _ _

omit [DecidableEq K] in
theorem clearLoop_bucket_of_ge (m : SafeMapState K V) (j i : Nat)
    (hj : j ≤ m.buckets.length) (hi : j ≤ i) :
    (m.clearLoop j).bucket i = m.bucket i := by
  unfold bucket
  rw [clearLoop_buckets m j hj]
  obtain ⟨t, rfl⟩ := Nat.exists_eq_add_of_le hi
  have h1 := getD_append_add (List.replicate j ([] : List (K × V)))
    (m.buckets.drop j) t []
  simp only [List.length_replicate] at h1
  rw [h1, getD_drop]

omit [DecidableEq K] in
theorem clearLoop_count (m : SafeMapState K V) (j : Nat)
    (hj : j ≤ m.buckets.length) :
    (m.clearLoop j).count
      = m.count - (((m.buckets.take j).map List.length).sum : Int) := by
  induction j with
  | zero => simp [clearLoop]
  | succ i ih =>
    have hi : i < m.buckets.length := by omega
    show ((m.clearLoop i).clearStep i).count = _
    simp only [clearStep]
    rw [ih (by omega)]
    have hb : (m.clearLoop i).bucket i = m.bucket i :=
      clearLoop_bucket_of_ge m i i (by omega) (Nat.le_refl i)
    rw [hb]
    have htake : m.buckets.take (i + 1) = m.buckets.take i ++ [m.buckets[i]] := by
      rw [List.take_succ]
      simp [List.getElem?_eq_getElem hi]
    rw [htake]
    have hbi : m.bucket i = m.buckets[i] :=
      List.getD_eq_getElem _ _ hi
    rw [hbi]
    simp only [List.map_append, List.sum_append, List.map_cons, List.map_nil,
      List.sum_cons, List.sum_nil]
    push_cast
    omega

omit [DecidableEq K] in
theorem Clear_buckets (m : SafeMapState K V) (hlen : m.buckets.length = m.bucketTotal) :
    m.Clear.buckets = List.replicate m.bucketTotal [] := by
  unfold Clear
  rw [clearLoop_buckets m _ (by omega)]
  rw [show m.buckets.drop m.bucketTotal = [] from by
    rw [← hlen]; exact List.drop_length _]
  simp

omit [DecidableEq K] in
theorem Clear_count_zero (m : SafeMapState K V) (hwf : WF m) : m.Clear.count = 0 := by
  obtain ⟨hlen, hpos, hcount, hnd⟩ := hwf
  unfold Clear
  rw [clearLoop_count m _ (by omega)]
  rw [show m.buckets.take m.bucketTotal = m.buckets from by
    rw [← hlen]; exact List.take_length _]
  unfold sumSizes at hcount
  omega

omit [DecidableEq K] in
theorem WF_Clear (m : SafeMapState K V) (hwf : WF m) : WF m.Clear := by
  have hb := Clear_buckets m hwf.1
  have hbt : m.Clear.bucketTotal = m.bucketTotal := clearLoop_bucketTotal m _
  refine ⟨?_, ?_, ?_, ?_⟩
  · rw [hb, hbt]; simp
  · rw [hbt]; exact hwf.2.1
  · rw [Clear_count_zero m hwf]
    unfold sumSizes
    rw [hb]
    simp [List.map_replicate]
  · intro b hbmem
    rw [hb] at hbmem
    rw [List.eq_of_mem_replicate hbmem]
    simp

theorem WF_applyOp (m : SafeMapState K V) (hwf : WF m) (op : MapOp K V) :
    WF (applyOp m op) := by
  cases op with
  | setOp k v => exact m.WF_Set hwf k v
  | deleteOp k => exact m.WF_Delete hwf k
  | getAndDeleteOp k =>
    show WF (m.GetAndDelete k).2
    rw [GetAndDelete_snd]
    exact m.WF_Delete hwf k
  | getOrSetOp k v => exact m.WF_GetOrSet hwf k v
  | clearOp => exact WF_Clear m hwf

theorem WF_applyOps (m : SafeMapState K V) (hwf : WF m) (ops : List (MapOp K V)) :
    WF (applyOps m ops) := by
  induction ops generalizing m with
  | nil => exact hwf
  | cons op rest ih => exact ih (applyOp m op) (WF_applyOp m hwf op)

theorem Get_applyOp_preserve (m : SafeMapState K V) (k0 : K) (v0 : V)
    (op : MapOp K V) (hop : mayTouch k0 op = false) (hget : m.Get k0 = some v0) :
    (applyOp m op).Get k0 = some v0 := by
  cases op with
  | setOp k v =>
    have hne : k0 ≠ k := Ne.symm (by simpa [mayTouch] using hop)
    show (m.Set k v).Get k0 = some v0
    rw [Get_Set_ne m k k0 v hne]
    exact hget
  | deleteOp k =>
    have hne : k0 ≠ k := Ne.symm (by simpa [mayTouch] using hop)
    show (m.Delete k).Get k0 = some v0
    rw [Get_Delete_ne m k k0 hne]
    exact hget
  | getAndDeleteOp k =>
    have hne : k0 ≠ k := Ne.symm (by simpa [mayTouch] using hop)
    show (m.GetAndDelete k).2.Get k0 = some v0
    rw [GetAndDelete_snd, Get_Delete_ne m k k0 hne]
    exact hget
  | getOrSetOp k v =>
    show (m.GetOrSet k v).2.Get k0 = some v0
    cases hk : m.Get k with
    | some w => rw [GetOrSet_of_some m k v w hk]; exact hget
    | none =>
      have hne : k0 ≠ k := by
        intro heq
        rw [← heq, hget] at hk
        cases hk
      rw [GetOrSet_snd_of_none m k v hk, Get_Set_ne m k k0 v hne]
      exact hget
  | clearOp => simp [mayTouch] at hop

theorem Get_applyOps_preserve (m : SafeMapState K V) (k0 : K) (v0 : V)
    (ops : List (MapOp K V)) (hops : ∀ op ∈ ops, mayTouch k0 op = false)
    (hget : m.Get k0 = some v0) : (applyOps m ops).Get k0 = some v0 := by
  induction ops generalizing m with
  | nil => exact hget
  | cons op rest ih =>
    exact ih (applyOp m op)
      (fun o ho => hops o (List.mem_cons_of_mem _ ho))
      (Get_applyOp_preserve m k0 v0 op (hops op (List.mem_cons_self _ _)) hget)

end SafeMapState

section Construction

variable {K V : Type}

theorem resolveBucketTotal_ne_zero (x : Int) : resolveBucketTotal x ≠ 0 := by
  unfold resolveBucketTotal
  split_ifs <;> omega

theorem loadOpts_ok_bucketTotal_ne_zero (opts : List (OptFunc K)) (o : GoOptions K)
    (h : loadOpts opts = .ok o) : o.bucketTotal ≠ 0 := by
  simp only [loadOpts] at h
  split at h
  · simp at h
  · injection h with h2
    subst h2
    exact resolveBucketTotal_ne_zero _

theorem loadOpts_ok_hashFunc_isSome (opts : List (OptFunc K)) (o : GoOptions K)
    (h : loadOpts opts = .ok o) : o.hashFunc.isSome := by
  simp only [loadOpts] at h
  split at h
  · simp at h
  · rename_i fn hfn
    injection h with h2
    subst h2
    simp [hfn]

theorem loadOpts_append_withHashFunc (opts : List (OptFunc K)) (f : K → Nat) :
    ∃ o, loadOpts (opts ++ [withHashFunc f]) = .ok o ∧ o.hashFunc = some f := by
  simp only [loadOpts, List.foldl_append, List.foldl_cons, List.foldl_nil,
    withHashFunc]
  exact ⟨_, rfl, rfl⟩

theorem WF_of_New [DecidableEq K] (opts : List (OptFunc K))
    (m0 : SafeMapState K V) (h : New opts = .ok m0) : WF m0 := by
  unfold New at h
  split at h
  · cases h
  · rename_i o hload
    split at h
    · cases h
    · rename_i fn hfn
      split at h
      · cases h
      · rename_i hneg
        injection h with h2
        subst h2
        have hne := loadOpts_ok_bucketTotal_ne_zero opts o hload
        refine ⟨by simp, by simp; omega, ?_, ?_⟩
        · simp [sumSizes, List.map_replicate]
        · intro b hb
          rw [List.eq_of_mem_replicate hb]
          simp

end Construction

theorem New_of_loadOpts_ok (K V : Type) [DecidableEq K] (opts : List (OptFunc K))
    (o : GoOptions K) (fn : K → Nat) (hload : loadOpts opts = .ok o)
    (hfn : o.hashFunc = some fn) :
    @New K V opts =
      if o.bucketTotal < 0 then ConstructOutcome.panicMakeSlice
      else ConstructOutcome.ok
        { count := 0
          buckets := List.replicate o.bucketTotal.toNat []
          bucketTotal := o.bucketTotal.toNat
          hashFunc := fn } := by
  simp only [New, hload, hfn]

theorem New_of_loadOpts_err (K V : Type) [DecidableEq K] (opts : List (OptFunc K))
    (hload : loadOpts opts = .errMissingHashFunc) :
    @New K V opts = ConstructOutcome.errMissingHashFunc := by
  simp only [New, hload]

theorem resolvedHashFunc_of_ok {K : Type} (opts : List (OptFunc K))
    (o : GoOptions K) (hload : loadOpts opts = .ok o) :
    resolvedHashFunc opts = o.hashFunc := by
  simp only [resolvedHashFunc, hload]

theorem resolvedHashFunc_of_err {K : Type} (opts : List (OptFunc K))
    (hload : loadOpts opts = .errMissingHashFunc) :
    resolvedHashFunc opts = none := by
  simp only [resolvedHashFunc, hload]

theorem resolvedBucketTotal_of_ok {K : Type} (opts : List (OptFunc K))
    (o : GoOptions K) (hload : loadOpts opts = .ok o) :
    resolvedBucketTotal opts = some o.bucketTotal := by
  simp only [resolvedBucketTotal, hload]

theorem Hashint_eq_natAbs (i : Int) (h1 : -(2 ^ 63) ≤ i) (h2 : i < 2 ^ 63) :
    Hashint i = i.natAbs := by
  unfold Hashint toUint64 negInt64 wrap64
  split_ifs with hneg <;> omega

theorem negInt64_range (i : Int) (_h1 : -(2 ^ 63) ≤ i) (_h2 : i < 2 ^ 63) :
    -(2 ^ 63) ≤ negInt64 i ∧ negInt64 i < 2 ^ 63 := by
  unfold negInt64 wrap64
  omega

theorem natAbs_negInt64 (i : Int) (_h1 : -(2 ^ 63) ≤ i) (_h2 : i < 2 ^ 63) :
    (negInt64 i).natAbs = i.natAbs := by
  unfold negInt64 wrap64
  omega

theorem clearTrace_succ (n : Nat) :
    clearTrace (n + 1) =
      clearTrace n ++ [ClearEv.lockEv n, ClearEv.mutateEv n, ClearEv.unlockEv n] := by
  unfold clearTrace
  rw [List.range_succ]
  simp

/-- Claim C9: the integer-key hash `Hashint` folds a negative key to its
unsigned magnitude (`natAbs`, which is `2^63` for the minimum `int64`), so
`Hashint k = Hashint (-k)` under 64-bit wrapping negation, and keys of equal
magnitude and opposite sign select the same bucket index for every bucket
count. -/
theorem hashint_magnitude (i : Int) (h1 : -(2 ^ 63) ≤ i) (h2 : i < 2 ^ 63) :
    Hashint i = i.natAbs ∧
    Hashint (negInt64 i) = Hashint i ∧
    ∀ n, hashIdxFn (Hashint (negInt64 i)) n = hashIdxFn (Hashint i) n := by
  have ha : Hashint i = i.natAbs := Hashint_eq_natAbs i h1 h2
  obtain ⟨hr1, hr2⟩ := negInt64_range i h1 h2
  have hb : Hashint (negInt64 i) = Hashint i := by
    rw [Hashint_eq_natAbs (negInt64 i) hr1 hr2, natAbs_negInt64 i h1 h2, ha]
  exact ⟨ha, hb, fun n => by rw [hb]⟩

/-- Witness for C9 at the ordinary key `-5` and at the minimum `int64`,
where the magnitude is `2^63`. -/
theorem hashint_magnitude_witness :
    (-(2 ^ 63) : Int) ≤ -5 ∧ (-5 : Int) < 2 ^ 63 ∧
    ((-5 : Int)).natAbs = 5 ∧ ((-(2 ^ 63) : Int)).natAbs = 2 ^ 63 ∧
    (Hashint (-5) = ((-5 : Int)).natAbs ∧
      Hashint (negInt64 (-5)) = Hashint (-5) ∧
      ∀ n, hashIdxFn (Hashint (negInt64 (-5))) n = hashIdxFn (Hashint (-5)) n) ∧
    (Hashint (-(2 ^ 63)) = ((-(2 ^ 63) : Int)).natAbs ∧
      Hashint (negInt64 (-(2 ^ 63))) = Hashint (-(2 ^ 63)) ∧
      ∀ n, hashIdxFn (Hashint (negInt64 (-(2 ^ 63)))) n
        = hashIdxFn (Hashint (-(2 ^ 63))) n) :=
  ⟨by decide, by decide, by decide, by decide,
   hashint_magnitude (-5) (by decide) (by decide),
   hashint_magnitude (-(2 ^ 63)) (by decide) (by decide)⟩

/-- Claim C3 is wrong about the code: `WithBuckets` does not clamp the
bit-count parameter to `[0,8]`; it only clamps the already-shifted value.
At mask 63 the Go expression `1 << 63` overflows `int` to the minimum
`int64`, which escapes both clamps, so the resolved bucket count is the
negative `-(2^63)` (not a power of two in `[1,256]`) and `New` panics on
`make` with a negative length; at mask 64 and above the shifted value is 0,
so the default 32 is silently used instead of the claimed clamp to 256.
Masks up to 8 and the default behave as claimed. -/
theorem withBuckets_overflow_eval :
    resolvedBucketTotal [withBuckets 63, withHashFunc hZero] = some (-(2 ^ 63)) ∧
    @New Int Unit [withBuckets 63, withHashFunc hZero]
      = ConstructOutcome.panicMakeSlice ∧
    resolvedBucketTotal [withBuckets 64, withHashFunc hZero] = some 32 ∧
    resolvedBucketTotal [withBuckets 5, withHashFunc hZero] = some 32 ∧
    resolvedBucketTotal [withBuckets 8, withHashFunc hZero] = some 256 ∧
    resolvedBucketTotal [withBuckets 9, withHashFunc hZero] = some 256 ∧
    resolvedBucketTotal [withHashFunc hZero] = some 32 :=
  ⟨rfl, rfl, rfl, rfl, rfl, rfl, rfl⟩

/-- Claim C8 counterexample: a hash function is configured, yet
construction does not succeed — `New` with `WithBuckets(63)` hits the
negative `make` length and panics, returning no map. -/
theorem new_panics_despite_hash_counterexample :
    (resolvedHashFunc [withBuckets 63, withHashFunc hZero]).isSome = true ∧
    @New Int Unit [withBuckets 63, withHashFunc hZero]
      = ConstructOutcome.panicMakeSlice ∧
    (@New Int Unit [withBuckets 63, withHashFunc hZero]).isOk = false :=
  ⟨rfl, rfl, rfl⟩

/-- Claim C8 (amended): `New` returns `ErrMissingHashFunc` exactly when no
hash function resolves from the options; when a hash function is present
and the resolved bucket count is nonnegative (true for every `WithBuckets`
mask except 63), construction succeeds, and every map it returns is
well-formed (per-key operations are total functions on it). -/
theorem new_error_iff_missing_hash (K V : Type) [DecidableEq K]
    (opts : List (OptFunc K)) :
    (@New K V opts = ConstructOutcome.errMissingHashFunc ↔
      resolvedHashFunc opts = none) ∧
    (∀ c, resolvedBucketTotal opts = some c → 0 ≤ c →
      (@New K V opts).isOk = true) ∧
    (∀ m0 : SafeMapState K V, New opts = ConstructOutcome.ok m0 → WF m0) := by
  refine ⟨?_, ?_, fun m0 h => WF_of_New opts m0 h⟩
  · cases hload : loadOpts opts with
    | errMissingHashFunc =>
      rw [New_of_loadOpts_err K V opts hload, resolvedHashFunc_of_err opts hload]
      simp
    | ok o =>
      obtain ⟨fn, hfn⟩ :=
        Option.isSome_iff_exists.mp (loadOpts_ok_hashFunc_isSome opts o hload)
      rw [New_of_loadOpts_ok K V opts o fn hload hfn,
        resolvedHashFunc_of_ok opts o hload, hfn]
      constructor
      · intro h
        split at h <;> cases h
      · intro h
        cases h
  · intro c hc hnonneg
    cases hload : loadOpts opts with
    | errMissingHashFunc =>
      rw [resolvedBucketTotal, hload] at hc
      cases hc
    | ok o =>
      rw [resolvedBucketTotal_of_ok opts o hload] at hc
      injection hc with hc
      obtain ⟨fn, hfn⟩ :=
        Option.isSome_iff_exists.mp (loadOpts_ok_hashFunc_isSome opts o hload)
      rw [New_of_loadOpts_ok K V opts o fn hload hfn, if_neg (by omega)]
      rfl

/-- Witness for C8: with only a hash option, the resolved bucket count is
the default 32 and construction succeeds. -/
theorem new_error_iff_missing_hash_witness :
    resolvedBucketTotal [withHashFunc hZero] = some 32 ∧ (0 : Int) ≤ 32 ∧
    (@New Int Nat [withHashFunc hZero]).isOk = true :=
  ⟨rfl, by decide,
   (new_error_iff_missing_hash Int Nat [withHashFunc hZero]).2.1 32 rfl (by decide)⟩

/-- Claim C10 counterexample: `NewSafeMapInteger(WithBuckets(63))` panics
on the negative `make` length, so a map is not always returned. -/
theorem typed_constructor_panic_counterexample :
    NewSafeMapInteger Nat [withBuckets 63] = ConstructOutcome.panicMakeSlice ∧
    (NewSafeMapInteger Nat [withBuckets 63]).isOk = false :=
  ⟨rfl, rfl⟩

/-- Claim C10 (amended): the typed constructors append the built-in hash
function after all caller options, so the resolved hash function is the
built-in one regardless of any caller-supplied `WithHashFunc`; they never
surface `ErrMissingHashFunc`; and whenever the resolved bucket count is
nonnegative (every mask except 63) a map is returned, carrying the
built-in hash. -/
theorem typed_constructor_hash_override (K V : Type) [DecidableEq K]
    (builtin : K → Nat) (opts : List (OptFunc K)) :
    resolvedHashFunc (opts ++ [withHashFunc builtin]) = some builtin ∧
    @NewTypedMap K V builtin opts ≠ ConstructOutcome.errMissingHashFunc ∧
    (∀ c, resolvedBucketTotal (opts ++ [withHashFunc builtin]) = some c →
      0 ≤ c → (@NewTypedMap K V builtin opts).isOk = true) ∧
    (∀ m0 : SafeMapState K V,
      @NewTypedMap K V builtin opts = ConstructOutcome.ok m0 →
      m0.hashFunc = builtin) := by
  obtain ⟨o, hok, hf⟩ := loadOpts_append_withHashFunc opts builtin
  have hnew := New_of_loadOpts_ok K V (opts ++ [withHashFunc builtin])
    o builtin hok hf
  refine ⟨?_, ?_, ?_, ?_⟩
  · rw [resolvedHashFunc_of_ok _ o hok, hf]
  · show @New K V (opts ++ [withHashFunc builtin]) ≠ _
    rw [hnew]
    split <;> intro h <;> cases h
  · intro c hc hnonneg
    rw [resolvedBucketTotal_of_ok _ o hok] at hc
    injection hc with hc
    show (@New K V (opts ++ [withHashFunc builtin])).isOk = true
    rw [hnew, if_neg (by omega)]
    rfl
  · intro m0 h
    rw [show @NewTypedMap K V builtin opts
        = @New K V (opts ++ [withHashFunc builtin]) from rfl, hnew] at h
    split at h
    · cases h
    · injection h with h2
      rw [← h2]

/-- Witness for C10: a caller-supplied hash (`hZero`) is overridden by the
appended built-in `Hashint`, and a map is returned for mask 2. -/
theorem typed_constructor_hash_override_witness :
    resolvedBucketTotal ([withHashFunc hZero, withBuckets 2]
      ++ [withHashFunc Hashint]) = some 4 ∧ (0 : Int) ≤ 4 ∧
    resolvedHashFunc ([withHashFunc hZero, withBuckets 2]
      ++ [withHashFunc Hashint]) = some Hashint ∧
    (@NewTypedMap Int Nat Hashint [withHashFunc hZero, withBuckets 2]).isOk
      = true :=
  ⟨rfl, by decide,
   (typed_constructor_hash_override Int Nat Hashint
     [withHashFunc hZero, withBuckets 2]).1,
   (typed_constructor_hash_override Int Nat Hashint
     [withHashFunc hZero, withBuckets 2]).2.2.1 4 rfl (by decide)⟩

/-- Claim C1 counterexample: the current `Clear` does not acquire all bucket
locks before mutating — its event trace mutates bucket 0 before ever locking
bucket 1 — and it is not logically atomic for `Len` observers: on a
well-formed reachable 2-entry map, the state between the two bucket steps
shows `Len = 1`, which is neither the initial 2 nor the final 0. -/
theorem clear_not_globally_atomic_counterexample :
    allLocksBeforeMutations (clearTrace 2) = false ∧
    @New Nat Nat [withBuckets 1, withHashFunc fId]
      = ConstructOutcome.ok ex0 ∧
    applyOps ex0 [MapOp.setOp 0 10, MapOp.setOp 1 20] = exC1 ∧
    WF exC1 ∧
    exC1.Len = 2 ∧ exC1.Clear.Len = 0 ∧
    (exC1.clearLoop 1).Len = 1 ∧
    (exC1.clearLoop 1).bucket 1 = [(1, 20)] :=
  ⟨by decide, rfl, rfl, by decide, by decide, by decide, by decide, by decide⟩

/-- Claim C1 (amended): `Clear` processes buckets in ascending index order,
but locks, clears and unlocks one bucket at a time (the next bucket's lock
is acquired only after the previous one is already cleared and released),
decrementing the counter by the cleared bucket's size under that bucket's
lock. Consequently at every step boundary the counter equals the total
size of the not-yet-cleared buckets — an observer never sees zero size
while entries remain, nor a nonzero size with all buckets empty — but
`Clear` is not one logically atomic operation: intermediate `Len` values
strictly between the initial size and 0 are observable. -/
theorem clear_per_bucket_discipline (K V : Type) [DecidableEq K]
    (m : SafeMapState K V) (hwf : WF m) (j : Nat) (hj : j ≤ m.bucketTotal) :
    (∀ i, i < j → (m.clearLoop j).bucket i = []) ∧
    (m.clearLoop j).Len = (((m.buckets.drop j).map List.length).sum : Int) ∧
    ((m.clearLoop j).Len = 0 ↔
      ∀ i, i < m.bucketTotal → (m.clearLoop j).bucket i = []) ∧
    clearTrace (j + 1) =
      clearTrace j ++ [ClearEv.lockEv j, ClearEv.mutateEv j, ClearEv.unlockEv j] := by
  obtain ⟨hlen, hpos, hcount, hnd⟩ := hwf
  have hjl : j ≤ m.buckets.length := by omega
  have hdropsum : (m.clearLoop j).Len
      = (((m.buckets.drop j).map List.length).sum : Int) := by
    show (m.clearLoop j).count = _
    rw [SafeMapState.clearLoop_count m j hjl]
    have hsplit := sum_map_take_drop m.buckets j
    unfold sumSizes at hcount
    omega
  refine ⟨fun i hi => SafeMapState.clearLoop_bucket_of_lt m j i hjl hi,
    hdropsum, ?_, clearTrace_succ j⟩
  rw [hdropsum]
  constructor
  · intro hzero i hi
    rcases Nat.lt_or_ge i j with hij | hij
    · exact SafeMapState.clearLoop_bucket_of_lt m j i hjl hij
    · rw [SafeMapState.clearLoop_bucket_of_ge m j i hjl hij]
      have hzn : ((m.buckets.drop j).map List.length).sum = 0 := by omega
      have hmem : m.bucket i ∈ m.buckets.drop j := by
        have hi2 : i - j < (m.buckets.drop j).length := by
          rw [List.length_drop]
          omega
        have : (m.buckets.drop j)[i - j] = m.buckets[i] := by
          rw [List.getElem_drop]
          congr 1
          omega
        rw [show m.bucket i = m.buckets[i] from
          List.getD_eq_getElem _ _ (by omega)]
        rw [← this]
        exact List.getElem_mem hi2
      have hlen0 : (m.bucket i).length = 0 :=
        List.sum_eq_zero_iff.mp hzn _ (List.mem_map_of_mem _ hmem)
      exact List.eq_nil_of_length_eq_zero hlen0
  · intro hall
    have hzn : ((m.buckets.drop j).map List.length).sum = 0 := by
      apply List.sum_eq_zero_iff.mpr
      intro x hx
      rcases List.mem_map.mp hx with ⟨b, hbmem, rfl⟩
      rcases List.mem_iff_getElem.mp hbmem with ⟨t, ht, rfl⟩
      have hjt : j + t < m.buckets.length := by
        rw [List.length_drop] at ht
        omega
      have hb : (m.buckets.drop j)[t] = m.bucket (j + t) := by
        rw [List.getElem_drop]
        exact (List.getD_eq_getElem _ _ hjt).symm
      rw [hb]
      have := hall (j + t) (by omega)
      rw [SafeMapState.clearLoop_bucket_of_ge m j (j + t) hjl (by omega)] at this
      rw [this]
      rfl
    omega

/-- Witness for C1 (amended) at the concrete state `mW` after one of two
bucket steps. -/
theorem clear_per_bucket_discipline_witness :
    WF mW ∧ 1 ≤ mW.bucketTotal ∧
    ((∀ i, i < 1 → (mW.clearLoop 1).bucket i = []) ∧
      (mW.clearLoop 1).Len = (((mW.buckets.drop 1).map List.length).sum : Int) ∧
      ((mW.clearLoop 1).Len = 0 ↔
        ∀ i, i < mW.bucketTotal → (mW.clearLoop 1).bucket i = []) ∧
      clearTrace 2 = clearTrace 1
        ++ [ClearEv.lockEv 1, ClearEv.mutateEv 1, ClearEv.unlockEv 1]) :=
  ⟨by decide, by decide, clear_per_bucket_discipline Nat Nat mW (by decide) 1 (by decide)⟩

/-- Claim C2: starting from any successfully constructed map and applying
any sequence of operations, the counter equals the total number of stored
entries, is never negative, and never exceeds the number of entries
actually stored. -/
theorem count_invariant (K V : Type) [DecidableEq K] (opts : List (OptFunc K))
    (m0 : SafeMapState K V) (ops : List (MapOp K V))
    (h : New opts = ConstructOutcome.ok m0) :
    (applyOps m0 ops).count = (sumSizes (applyOps m0 ops) : Int) ∧
    0 ≤ (applyOps m0 ops).count ∧
    (applyOps m0 ops).count ≤ (sumSizes (applyOps m0 ops) : Int) := by
  have hwf := SafeMapState.WF_applyOps m0 (WF_of_New opts m0 h) ops
  obtain ⟨_, _, hc, _⟩ := hwf
  refine ⟨hc, ?_, le_of_eq hc⟩
  rw [hc]
  exact Int.natCast_nonneg _

/-- Witness for C2: default construction followed by an overwrite, a
delete of an absent key, and a clear. -/
theorem count_invariant_witness :
    @New Nat Nat [withHashFunc fId] = ConstructOutcome.ok m0W ∧
    ((applyOps m0W [MapOp.setOp 1 2, MapOp.setOp 1 3, MapOp.deleteOp 9,
        MapOp.clearOp]).count
      = (sumSizes (applyOps m0W [MapOp.setOp 1 2, MapOp.setOp 1 3,
        MapOp.deleteOp 9, MapOp.clearOp]) : Int) ∧
      0 ≤ (applyOps m0W [MapOp.setOp 1 2, MapOp.setOp 1 3, MapOp.deleteOp 9,
        MapOp.clearOp]).count ∧
      (applyOps m0W [MapOp.setOp 1 2, MapOp.setOp 1 3, MapOp.deleteOp 9,
        MapOp.clearOp]).count
      ≤ (sumSizes (applyOps m0W [MapOp.setOp 1 2, MapOp.setOp 1 3,
        MapOp.deleteOp 9, MapOp.clearOp]) : Int)) :=
  ⟨rfl, count_invariant Nat Nat [withHashFunc fId] m0W
    [MapOp.setOp 1 2, MapOp.setOp 1 3, MapOp.deleteOp 9, MapOp.clearOp] rfl⟩

/-- Claim C4: `Set(k, v)` makes a subsequent `Get(k)` return `(v, true)`
across any further operations that do not delete, clear, or overwrite `k`;
`Set` on a present key leaves `Len` unchanged, and `Set` on an absent key
increases `Len` by exactly 1. -/
theorem set_get_len_spec (K V : Type) [DecidableEq K] (m : SafeMapState K V)
    (hwf : WF m) (k : K) (v : V) (ops : List (MapOp K V))
    (hops : ∀ op ∈ ops, mayTouch k op = false) :
    (applyOps (m.Set k v) ops).Get k = some v ∧
    (m.Get k = none → (m.Set k v).Len = m.Len + 1) ∧
    (∀ w, m.Get k = some w → (m.Set k v).Len = m.Len) := by
  refine ⟨?_, ?_, ?_⟩
  · exact SafeMapState.Get_applyOps_preserve _ k v ops hops (m.Get_Set_self hwf k v)
  · intro h
    rw [SafeMapState.Len_Set, h]
    rfl
  · intro w h
    rw [SafeMapState.Len_Set, h]
    rfl

/-- Witness for C4: set key 2 on `mW`, then operate on another key. -/
theorem set_get_len_spec_witness :
    WF mW ∧ mW.Get 2 = none ∧
    (∀ op ∈ ([MapOp.setOp 1 100, MapOp.getOrSetOp 2 50] : List (MapOp Nat Nat)),
      mayTouch 2 op = false) ∧
    ((applyOps (mW.Set 2 9) [MapOp.setOp 1 100, MapOp.getOrSetOp 2 50]).Get 2
        = some 9 ∧
      (mW.Get 2 = none → (mW.Set 2 9).Len = mW.Len + 1) ∧
      (∀ w, mW.Get 2 = some w → (mW.Set 2 9).Len = mW.Len)) :=
  ⟨by decide, by decide, by decide,
   set_get_len_spec Nat Nat mW (by decide) 2 9
     [MapOp.setOp 1 100, MapOp.getOrSetOp 2 50] (by decide)⟩

/-- Claim C5: `GetOrSet(k, v)` returns `(existing, true)` and leaves the
map untouched when `k` is present; when absent it inserts `v`, returns
`(v, false)`, and increases `Len` by 1. -/
theorem getOrSet_spec (K V : Type) [DecidableEq K] (m : SafeMapState K V)
    (hwf : WF m) (k : K) (v : V) :
    (∀ w, m.Get k = some w → m.GetOrSet k v = ((w, true), m)) ∧
    (m.Get k = none →
      (m.GetOrSet k v).1 = (v, false) ∧
      (m.GetOrSet k v).2.Len = m.Len + 1 ∧
      (m.GetOrSet k v).2.Get k = some v) := by
  constructor
  · intro w h
    exact SafeMapState.GetOrSet_of_some m k v w h
  · intro h
    refine ⟨SafeMapState.GetOrSet_fst_of_none m k v h, ?_, ?_⟩
    · rw [SafeMapState.GetOrSet_snd_of_none m k v h, SafeMapState.Len_Set, h]
      rfl
    · rw [SafeMapState.GetOrSet_snd_of_none m k v h]
      exact m.Get_Set_self hwf k v

/-- Witness for C5, realizing the spec scenario: `GetOrSet "x" 10` on an
empty map stores and returns `(10, false)`; the following
`GetOrSet "x" 20` returns `(10, true)` and changes nothing. -/
theorem getOrSet_spec_witness :
    WF emptyX ∧ emptyX.Get "x" = none ∧
    (emptyX.GetOrSet "x" 10).1 = (10, false) ∧
    WF (emptyX.GetOrSet "x" 10).2 ∧
    (emptyX.GetOrSet "x" 10).2.Get "x" = some 10 ∧
    ((∀ w, (emptyX.GetOrSet "x" 10).2.Get "x" = some w →
        (emptyX.GetOrSet "x" 10).2.GetOrSet "x" 20
          = ((w, true), (emptyX.GetOrSet "x" 10).2)) ∧
      ((emptyX.GetOrSet "x" 10).2.Get "x" = none →
        ((emptyX.GetOrSet "x" 10).2.GetOrSet "x" 20).1 = (20, false) ∧
        ((emptyX.GetOrSet "x" 10).2.GetOrSet "x" 20).2.Len
          = (emptyX.GetOrSet "x" 10).2.Len + 1 ∧
        ((emptyX.GetOrSet "x" 10).2.GetOrSet "x" 20).2.Get "x" = some 20)) :=
  ⟨by decide, by decide, by decide, by decide, by decide,
   getOrSet_spec String Int (emptyX.GetOrSet "x" 10).2 (by decide) "x" 20⟩

/-- Claim C6: `GetAndDelete(k)` returns the present value and removes it,
decrementing `Len` by 1 and making a subsequent `Get(k)` miss; on an
absent key it returns nothing and leaves the state untouched. -/
theorem getAndDelete_spec (K V : Type) [DecidableEq K] (m : SafeMapState K V)
    (hwf : WF m) (k : K) :
    (m.GetAndDelete k).1 = m.Get k ∧
    (m.Get k = none → (m.GetAndDelete k).2 = m) ∧
    (∀ v, m.Get k = some v →
      (m.GetAndDelete k).2.Get k = none ∧
      (m.GetAndDelete k).2.Len = m.Len - 1) := by
  refine ⟨SafeMapState.GetAndDelete_fst m k, ?_, ?_⟩
  · intro h
    rw [SafeMapState.GetAndDelete_snd]
    exact m.Delete_of_Get_none k h
  · intro v h
    rw [SafeMapState.GetAndDelete_snd]
    exact ⟨m.Get_Delete_self hwf k, SafeMapState.Len_Delete_some m k v h⟩

/-- Witness for C6 on key 1 of `mW`, which holds value 7. -/
theorem getAndDelete_spec_witness :
    WF mW ∧ mW.Get 1 = some 7 ∧
    ((mW.GetAndDelete 1).1 = mW.Get 1 ∧
      (mW.Get 1 = none → (mW.GetAndDelete 1).2 = mW) ∧
      (∀ v, mW.Get 1 = some v →
        (mW.GetAndDelete 1).2.Get 1 = none ∧
        (mW.GetAndDelete 1).2.Len = mW.Len - 1)) :=
  ⟨by decide, by decide, getAndDelete_spec Nat Nat mW (by decide) 1⟩

/-- Claim C7: from any well-formed state, `Clear()` leaves `Len() = 0` and
`IsEmpty() = true`, a subsequent `Range` visits zero entries, and a second
`Clear()` is idempotent, leaving `Len() = 0`. -/
theorem clear_empties_map (K V : Type) [DecidableEq K] (m : SafeMapState K V)
    (hwf : WF m) :
    m.Clear.Len = 0 ∧ m.Clear.IsEmpty = true ∧
    (∀ f, m.Clear.Range f = []) ∧ m.Clear.Clear.Len = 0 := by
  have h0 : m.Clear.Len = 0 := SafeMapState.Clear_count_zero m hwf
  refine ⟨h0, ?_, ?_, ?_⟩
  · have : m.Clear.count = 0 := h0
    simp [SafeMapState.IsEmpty, this]
  · intro f
    unfold SafeMapState.Range
    rw [SafeMapState.Clear_buckets m hwf.1, flatten_replicate_nil]
    rfl
  · exact SafeMapState.Clear_count_zero m.Clear (SafeMapState.WF_Clear m hwf)

/-- Witness for C7 at `mW` (and, via the fourth conjunct, on the
already-empty cleared map). -/
theorem clear_empties_map_witness :
    WF mW ∧
    (mW.Clear.Len = 0 ∧ mW.Clear.IsEmpty = true ∧
      (∀ f, mW.Clear.Range f = []) ∧ mW.Clear.Clear.Len = 0) :=
  ⟨by decide, clear_empties_map Nat Nat mW (by decide)⟩

end SafemapGo
